import Mathlib

/-!
Verification development for the storage-encoding core of the solomon-db
property-graph database (src/db/src/util/byte.rs, src/db/src/controller/edge.rs,
src/db/src/model/graph/property.rs).

Modelling conventions:
* Rust byte buffers (`Vec<u8>`, `&[u8]`) are `List Nat`; where a theorem needs
  that elements are genuine bytes it carries explicit bounds.
* Rust machine integers are `Nat` with explicit `% 2 ^ w` at every operation
  whose wrap-around matters (release-mode wrapping semantics).
* Fallible code returns `Option`; `Option.none` models a Rust panic (slice
  index out of bounds, a failed `unwrap`, or arithmetic overflow trap) or a
  diverging loop.  The source decoders never construct their `Result` error
  value on any path, so no separate error constructor is needed.
* Loop constructs whose termination is data dependent are given explicit fuel,
  with enough fuel that only genuinely diverging executions exhaust it.
-/

/-- Rust slice indexing `&l[a..b]`: defined exactly when `a ≤ b ≤ l.length`,
otherwise the source code would panic (modelled as `Option.none`). -/
def slice? (l : List Nat) (a b : Nat) : Option (List Nat) :=
  if a ≤ b ∧ b ≤ l.length then some ((l.drop a).take (b - a)) else Option.none

/-- Big-endian base-256 digits of `x`, `k` bytes wide (most significant first). -/
def beBytes : Nat → Nat → List Nat
  | 0, _ => []
  | k + 1, x => x / 256 ^ k % 256 :: beBytes k (x % 256 ^ k)

/-- `byteorder::WriteBytesExt::write_u64::<BigEndian>`: the eight big-endian
bytes of a `u64` value. -/
def u64be (x : Nat) : List Nat :=
  beBytes 8 x

/-- Unsigned lexicographic comparison of byte strings, as Rust compares
`&[u8]` values (and as an ordered key-value store compares keys). -/
def bytesLt : List Nat → List Nat → Bool
  | [], [] => false
  | [], _ :: _ => true
  | _ :: _, [] => false
  | x :: xs, y :: ys => if x < y then true else if x = y then bytesLt xs ys else false

/-- Wrapping `u64` subtraction `a.wrapping_sub(b)` for `a < 2 ^ 64`
(release-mode Rust semantics; a debug build would instead trap on underflow). -/
def wrappingSub64 (a b : Nat) : Nat :=
  (a + 2 ^ 64 - b % 2 ^ 64) % 2 ^ 64

/-- Modelled from the spec: `crate::Identifier` is not under `src/`; per the
spec it is a validated short string used as an edge/vertex type label.  We
carry its UTF-8 bytes; `Identifier.valid` is the part of the validation the
byte layout depends on (the name length must fit the one-byte length prefix). -/
structure Identifier where
  name : List Nat

/-- The length/charset validation enforced by `Identifier::new`, restricted to
what the byte layout relies on. -/
def Identifier.valid (i : Identifier) : Prop :=
  i.name.length ≤ 255 ∧ ∀ b ∈ i.name, b < 256

/-- `chrono::DateTime<Utc>` reduced to the two observations the source uses:
`timestamp()` (an `i64`, so an `Int`) and `timestamp_subsec_nanos()` (a `u32`;
chrono produces values up to `1_999_999_999` for leap seconds). -/
structure UtcDateTime where
  timestamp : Int
  subsecNanos : Nat

/-- `MAX_DATETIME`: seconds `i32::MAX`, and `with_nanosecond(1_999_999_999)`. -/
def MAX_DATETIME : UtcDateTime :=
  ⟨2147483647, 1999999999⟩

/-- `nanos_since_epoch` from `src/db/src/util/byte.rs`:
`timestamp() as u64 * 1_000_000_000 + subsec_nanos as u64`, with u64 wrapping. -/
def nanos_since_epoch (d : UtcDateTime) : Nat :=
  ((d.timestamp % (2 ^ 64 : Int)).toNat * 1000000000 + d.subsecNanos) % 2 ^ 64

/-- `Component` from `src/db/src/util/byte.rs` (variants in source order). -/
inductive Component where
  | uuid (u : List Nat)
  | property (id : List Nat) (data : List Nat)
  | fixedLengthString (s : List Nat)
  | identifier (i : Identifier)
  | dateTime (d : UtcDateTime)
  | bytes (b : List Nat)

/-- `Component::len` (match arms in source order). -/
def Component.len : Component → Nat
  | .uuid _ => 16
  | .fixedLengthString s => s.length
  | .identifier t => t.name.length + 1
  | .dateTime _ => 8
  | .bytes b => b.length
  | .property _ d => d.length

/-- `Component::write`: the bytes appended to the cursor.  The `Identifier`
and `Property` length prefixes are `as u8` casts, hence `% 256`; the
`DateTime` arm is the wrapping u64 subtraction the source performs. -/
def Component.write : Component → List Nat
  | .uuid u => u
  | .fixedLengthString s => s
  | .identifier i => i.name.length % 256 :: i.name
  | .dateTime d =>
      u64be (wrappingSub64 (nanos_since_epoch MAX_DATETIME) (nanos_since_epoch d))
  | .bytes b => b
  | .property id d => id ++ [d.length % 256] ++ d

/-- `build_bytes`: writes each component in order into one buffer.  (In the
model `Component.write` is total, so the panic branch of the source is
unreachable and the function always succeeds.) -/
def build_bytes (components : List Component) : List Nat :=
  (components.map Component.write).flatten

/-- `build_meta(size, length)`: `vec![size, length as u8]`.  `size` is already
a `u8` in the source signature; `length` is a `usize` truncated by the cast. -/
def build_meta (size : Nat) (length : Nat) : List Nat :=
  [size, length % 256]

/-- Modelled from the spec: `crate::AccountDiscriminator` is not under `src/`.
The spec names the two tags the decoder distinguishes: `None` (fixed-length
records) and `Property` (variable-length property records).  The source
serializes it with `bincode`, which encodes a fieldless enum as its 4-byte
little-endian variant index. -/
inductive AccountDiscriminator where
  | None
  | Property

/-- `AccountDiscriminator::serialize` (bincode: 4-byte LE variant index). -/
def AccountDiscriminator.serialize : AccountDiscriminator → List Nat
  | .None => [0, 0, 0, 0]
  | .Property => [1, 0, 0, 0]

/-- `bincode::deserialize::<AccountDiscriminator>` on a 4-byte buffer;
any other byte pattern makes the source's `.unwrap()` panic. -/
def bincodeDeserializeDisc (b : List Nat) : Option AccountDiscriminator :=
  if b = [0, 0, 0, 0] then some AccountDiscriminator.None
  else if b = [1, 0, 0, 0] then some AccountDiscriminator.Property
  else Option.none

/-- The `while (total_len as usize) < data.len()` loop of the `Property` arm of
`deserialize_data_with_meta`.  `total_len` is a `u8` in the source, so every
update is taken `% 256` (the source's compound update
`total_len += len_index as u8 + 1 + len - total_len` is congruent to
`len_index + 1 + len` mod 256).  The loop's state is just `total_len`, so any
execution that has not stopped after 256 + 1 distinct values repeats a state
and diverges; fuel exhaustion therefore models a diverging (or, in a debug
build, overflow-trapping) execution. -/
def propEntries (data : List Nat) (offset : Nat) :
    Nat → Nat → List (List Nat) → Option (List (List Nat))
  | 0, _, _ => Option.none
  | fuel + 1, total_len, acc =>
    if total_len < data.length then
      let o := if total_len = 0 then total_len + (offset - 2) else total_len
      let len_index := 16 + o
      match data[len_index]? with
      | some len =>
        match slice? data o len_index, slice? data (len_index + 1) (len_index + 1 + len) with
        | some u, some d =>
            propEntries data offset fuel ((len_index + 1 + len) % 256) (acc ++ [u ++ d])
        | _, _ => Option.none
      | Option.none => Option.none
    else some acc

/-- The `for i in 0..*size` loop of the fixed-length arm: slice number `i` is
`&d[(i * length) as usize..((i + 1) * length) as usize]`, where both products
are `u8` multiplications (hence `% 256`). -/
def fixedSlices (d : List Nat) (length : Nat) : Nat → Option (List (List Nat))
  | 0 => some []
  | i + 1 =>
    match fixedSlices d length i, slice? d (i * length % 256) ((i + 1) * length % 256) with
    | some acc, some s => some (acc ++ [s])
    | _, _ => Option.none

/-- `deserialize_data_with_meta` from `src/db/src/util/byte.rs`.
Returns `(records, bytes consumed, serialized discriminator)`;
`Option.none` models a panic or divergence, never a returned error
(the source function has no path that constructs its `Err` case). -/
def deserialize_data_with_meta (data : List Nat) (has_discriminator : Bool) :
    Option (List (List Nat) × Nat × List Nat) :=
  let offset := if has_discriminator then 6 else 2
  let disc? : Option AccountDiscriminator :=
    if has_discriminator then
      match slice? data 0 4 with
      | some b => bincodeDeserializeDisc b
      | Option.none => Option.none
    else some AccountDiscriminator.None
  match disc? with
  | Option.none => Option.none
  | some AccountDiscriminator.Property =>
    match propEntries data offset (data.length + 258) 0 [] with
    | some ans => some (ans, data.length, AccountDiscriminator.Property.serialize)
    | Option.none => Option.none
  | some disc =>
    match data[offset - 2]?, data[offset - 1]? with
    | some size, some length =>
      let len := size * length % 256
      match slice? data offset (len + offset) with
      | some d =>
        match fixedSlices d length size with
        | some ans => some (ans, d.length + offset, disc.serialize)
        | Option.none => Option.none
      | Option.none => Option.none
    | _, _ => Option.none

/-- The `while total_length > 0` loop of `deserialize_byte_data`.  `start` and
`total_length` are `usize`; the source's `total_length -= length` is wrapping
subtraction in a release build, written here as an explicit `% 2 ^ 64`.  Each
successful group consumes at least two bytes, so terminating executions use at
most `data.length + 2` fuel. -/
def dbdLoop (data : List Nat) (hd : Bool) :
    Nat → Nat → Nat → List (List (List Nat) × List Nat) →
      Option (List (List (List Nat) × List Nat))
  | 0, _, _, _ => Option.none
  | fuel + 1, start, total_length, acc =>
    if 0 < total_length then
      if start ≤ data.length then
        match deserialize_data_with_meta (data.drop start) hd with
        | some (d, length, disc) =>
            dbdLoop data hd fuel (start + length)
              ((total_length + 2 ^ 64 - length % 2 ^ 64) % 2 ^ 64) (acc ++ [(d, disc)])
        | Option.none => Option.none
      else Option.none
    else some acc

/-- `deserialize_byte_data` from `src/db/src/util/byte.rs`: repeatedly decodes
the unconsumed suffix, accumulating `(records, discriminator)` pairs. -/
def deserialize_byte_data (data : List Nat) (has_discriminator : Bool) :
    Option (List (List (List Nat) × List Nat)) :=
  dbdLoop data has_discriminator (data.length + 2) 0 data.length []

/-- `EdgeController::key`: `build_bytes(&[Uuid(out_id), Identifier(t), Uuid(in_id)])`. -/
def EdgeController.key (out_id : List Nat) (t : Identifier) (in_id : List Nat) : List Nat :=
  build_bytes [Component.uuid out_id, Component.identifier t, Component.uuid in_id]

/-- The key computed on line 26 of `src/db/src/controller/edge.rs`:
`self.key(target_vertex, &t_id, source_vertex)`. -/
def EdgeController.create_key (source_vertex target_vertex : List Nat) (t : Identifier) :
    List Nat :=
  EdgeController.key target_vertex t source_vertex

/-- Modelled from the spec: the abstract ordered transactional key-value store
(spec §6).  Only the edges partition (`"edges:v1"`) is concrete; the state of
the external property-storage collaborator is an opaque `π`. -/
structure Store (π : Type) where
  edges : List (List Nat × List Nat)
  propState : π

/-- Modelled from the spec: outcome of `EdgePropertyController::create`, the
external property collaborator.  It runs its own transaction before the edge
key is written, so both outcomes carry its resulting state. -/
inductive EpcOutcome (π : Type) where
  | ok (p : π) (props : List Nat)
  | failed (p : π)

/-- Modelled from the spec: `EdgeController::create`
(`src/db/src/controller/edge.rs`, lines 15–35).  The source opens a
transaction, computes the key, calls the property collaborator, and only then
buffers `tx.set(cf, key, [])` and commits.  A failing property write hits
`.unwrap()`, the transaction is dropped uncommitted, and no buffered write
reaches the store; `Option.none` in the second component models that panic. -/
def EdgeController.create {π : Type} (epcCreate : π → EpcOutcome π) (st : Store π)
    (source_vertex target_vertex : List Nat) (t : Identifier) :
    Store π × Option (List Nat × List Nat × Identifier × List Nat) :=
  let key := EdgeController.create_key source_vertex target_vertex t
  match epcCreate st.propState with
  | .failed p => (⟨st.edges, p⟩, Option.none)
  | .ok p props =>
      (⟨(key, []) :: st.edges, p⟩, some (source_vertex, target_vertex, t, props))

/-! Encodings of well-formed stored buffers, used to state the decoding
claims.  These follow the layouts the decoder itself implements. -/

/-- One property entry: 16-byte id, one length byte, then the data bytes. -/
def encodeEntry (e : List Nat × List Nat) : List Nat :=
  e.1 ++ [e.2.length] ++ e.2

/-- Back-to-back property entries. -/
def encodeEntries : List (List Nat × List Nat) → List Nat
  | [] => []
  | e :: rest => encodeEntry e ++ encodeEntries rest

/-- Well-formed property entries: 16-byte ids, data fitting the length byte. -/
def wfEntries (es : List (List Nat × List Nat)) : Prop :=
  ∀ e ∈ es, e.1.length = 16 ∧ e.2.length ≤ 255

/-- A `Property`-tagged group: the 4-byte discriminator, then the entries. -/
def encodePropGroup (es : List (List Nat × List Nat)) : List Nat :=
  AccountDiscriminator.Property.serialize ++ encodeEntries es

/-- Constraints under which the decoder's 8-bit running offset cannot wrap:
at least one entry, well-formed entries, and a total size of at most 255. -/
def wfPropGroup (es : List (List Nat × List Nat)) : Prop :=
  es ≠ [] ∧ wfEntries es ∧ (encodePropGroup es).length ≤ 255

/-- A fixed-length record group: `count` records of `entryLen` bytes each. -/
structure FixedGroup where
  entries : List (List Nat)
  entryLen : Nat

/-- Constraints under which the decoder's 8-bit arithmetic cannot wrap. -/
def FixedGroup.wf (g : FixedGroup) : Prop :=
  g.entries.length ≤ 255 ∧ g.entryLen ≤ 255 ∧
    g.entries.length * g.entryLen ≤ 255 ∧ ∀ e ∈ g.entries, e.length = g.entryLen

/-- A discriminator-tagged fixed-length group: `None` tag, meta, payload. -/
def encodeFixedGroup (g : FixedGroup) : List Nat :=
  AccountDiscriminator.None.serialize ++ build_meta g.entries.length g.entryLen ++
    g.entries.flatten

/-- A sequence of fixed-length groups optionally followed by one final
`Property`-tagged group, concatenated end to end. -/
def encodeGroups (gs : List FixedGroup) (p : Option (List (List Nat × List Nat))) :
    List Nat :=
  (gs.map encodeFixedGroup).flatten ++
    (match p with
     | some es => encodePropGroup es
     | Option.none => [])

/-! ### Generic helper lemmas -/

theorem slice?_pos {l : List Nat} {a b : Nat} (h1 : a ≤ b) (h2 : b ≤ l.length) :
    slice? l a b = some ((l.drop a).take (b - a)) := by
  simp [slice?, h1, h2]

theorem nanos_lt_two_pow (d : UtcDateTime) : nanos_since_epoch d < 2 ^ 64 :=
  Nat.mod_lt _ (by norm_num)

theorem wrappingSub64_of_le {a b : Nat} (hb : b ≤ a) (ha : a < 2 ^ 64) :
    wrappingSub64 a b = a - b := by
  unfold wrappingSub64
  rw [Nat.mod_eq_of_lt (lt_of_le_of_lt hb ha)]
  have h : a + 2 ^ 64 - b = 2 ^ 64 + (a - b) := by omega
  rw [h, Nat.add_mod_left, Nat.mod_eq_of_lt (by omega)]

theorem bytesLt_beBytes : ∀ (k x y : Nat), x < 256 ^ k → y < 256 ^ k → x < y →
    bytesLt (beBytes k x) (beBytes k y) = true := by
  intro k
  induction k with
  | zero =>
    intro x y hx hy hxy
    simp [pow_zero] at hx hy
    omega
  | succ k ih =>
    intro x y hx hy hxy
    have hpow : 0 < 256 ^ k := Nat.pos_pow_of_pos _ (by norm_num)
    rw [pow_succ] at hx hy
    have hqx : x / 256 ^ k < 256 := Nat.div_lt_of_lt_mul hx
    have hqy : y / 256 ^ k < 256 := Nat.div_lt_of_lt_mul hy
    rcases Nat.lt_or_ge (x / 256 ^ k) (y / 256 ^ k) with hlt | hge
    · simp [beBytes, bytesLt, Nat.mod_eq_of_lt hqx, Nat.mod_eq_of_lt hqy, hlt]
    · have heq : x / 256 ^ k = y / 256 ^ k :=
        le_antisymm (Nat.div_le_div_right (le_of_lt hxy)) hge
      have hxr : x % 256 ^ k < 256 ^ k := Nat.mod_lt _ hpow
      have hyr : y % 256 ^ k < 256 ^ k := Nat.mod_lt _ hpow
      have hxy2 : x % 256 ^ k < y % 256 ^ k := by
        have e1 := Nat.div_add_mod x (256 ^ k)
        have e2 := Nat.div_add_mod y (256 ^ k)
        rw [heq] at e1
        omega
      have htail := ih (x % 256 ^ k) (y % 256 ^ k) hxr hyr hxy2
      simp [beBytes, bytesLt, Nat.mod_eq_of_lt hqx, Nat.mod_eq_of_lt hqy, heq, htail]

/-! ### Claim theorems: components, keys, timestamps, meta -/

/-- C1: for every `Component` variant, `len()` must equal exactly the number of
bytes `write()` emits; in particular a `Property` with a 16-byte id and 5 data
bytes must report 16 + 1 + 5 = 22.  Evaluating the source at that input shows
`len()` returns only the data length 5 while `write()` emits 22 bytes, so the
`Property` arm of `Component::len` violates the claimed invariant. -/
theorem C1_property_len_write_mismatch :
    Component.len (Component.property (List.replicate 16 0) [1, 2, 3, 4, 5]) = 5 ∧
    (Component.write (Component.property (List.replicate 16 0) [1, 2, 3, 4, 5])).length = 22 := by
  exact ⟨rfl, by decide⟩

/-- C10: `build_meta(c, L)` is exactly the two bytes `[c, L mod 256]`; an entry
length above 255 is silently truncated by the `as u8` cast, never rejected. -/
theorem C10_build_meta_truncates (c L : Nat) (_hc : c < 256) (_hL : L < 2 ^ 64) :
    build_meta c L = [c, L % 256] ∧ (build_meta c L).length = 2 :=
  ⟨rfl, rfl⟩

theorem C10_build_meta_truncates_witness :
    build_meta 7 300 = [7, 300 % 256] ∧ (build_meta 7 300).length = 2 :=
  C10_build_meta_truncates 7 300 (by norm_num) (by norm_num)

/-- C5: within the representable window, later timestamps encode to strictly
smaller 8-byte big-endian values, so a forward byte-order scan is newest-first. -/
theorem C5_datetime_inverted_order (t1 t2 : UtcDateTime)
    (h12 : nanos_since_epoch t1 < nanos_since_epoch t2)
    (h2 : nanos_since_epoch t2 ≤ nanos_since_epoch MAX_DATETIME) :
    bytesLt (Component.write (Component.dateTime t2))
      (Component.write (Component.dateTime t1)) = true := by
  have hM : nanos_since_epoch MAX_DATETIME < 2 ^ 64 := nanos_lt_two_pow _
  have h1 : nanos_since_epoch t1 ≤ nanos_since_epoch MAX_DATETIME := by omega
  simp only [Component.write, u64be,
    wrappingSub64_of_le h2 hM, wrappingSub64_of_le h1 hM]
  have hp : (256 : Nat) ^ 8 = 2 ^ 64 := by norm_num
  exact bytesLt_beBytes 8 _ _ (by omega) (by omega) (by omega)

theorem C5_datetime_inverted_order_witness :
    bytesLt (Component.write (Component.dateTime ⟨1609459200, 0⟩))
      (Component.write (Component.dateTime ⟨1577836800, 0⟩)) = true :=
  C5_datetime_inverted_order ⟨1577836800, 0⟩ ⟨1609459200, 0⟩ (by decide) (by decide)

/-- C9: a timestamp past `MAX_DATETIME` is not rejected by the `DateTime` write
arm: the u64 subtraction silently wraps (release semantics; a debug build would
abort with an arithmetic panic, which is not a rejection either).  At one
nanosecond past the window the emitted encoding is `0xFFFFFFFFFFFFFFFF`. -/
theorem C9_datetime_overflow_wraps :
    nanos_since_epoch MAX_DATETIME < nanos_since_epoch ⟨2147483649, 0⟩ ∧
    Component.write (Component.dateTime ⟨2147483649, 0⟩) =
      [255, 255, 255, 255, 255, 255, 255, 255] := by
  exact ⟨by decide, by decide⟩

/-- C8: on a buffer whose length byte points past the end (meta `[1, 3]` but
only one payload byte), both decoders abort abnormally (`Option.none` models
the source's out-of-bounds slice panic); no path of either source function
ever constructs the typed `Err` value the claim requires. -/
theorem C8_decode_panics_on_bad_length :
    deserialize_data_with_meta [1, 3, 0] false = Option.none ∧
    deserialize_byte_data [1, 3, 0] false = Option.none := by
  exact ⟨by decide, by decide⟩

/-! ### Decoding lemmas: property groups -/

theorem encodeEntries_count_le (es : List (List Nat × List Nat)) :
    es.length ≤ (encodeEntries es).length := by
  induction es with
  | nil => simp [encodeEntries]
  | cons e rest ih =>
    simp only [encodeEntries, encodeEntry, List.length_cons, List.length_append]
    omega

/-- Reading one property entry at absolute offset `o`: the length byte sits 16
bytes in, the id is the 16-byte slice, the data is the following slice. -/
theorem propEntries_read (data id d restE : List Nat) (o : Nat)
    (hid : id.length = 16)
    (hdrop : data.drop o = id ++ ([d.length] ++ (d ++ restE))) :
    data[16 + o]? = some d.length ∧
    slice? data o (16 + o) = some id ∧
    slice? data (16 + o + 1) (16 + o + 1 + d.length) = some d ∧
    data.drop (16 + o + 1 + d.length) = restE ∧
    data.length = o + 17 + d.length + restE.length := by
  have hlen : data.length = o + 17 + d.length + restE.length := by
    have h := congrArg List.length hdrop
    simp [List.length_drop, hid] at h
    omega
  have hgrp : data.drop o = (id ++ [d.length]) ++ (d ++ restE) := by
    rw [hdrop]; simp [List.append_assoc]
  have hgrp2 : data.drop o = ((id ++ [d.length]) ++ d) ++ restE := by
    rw [hdrop]; simp [List.append_assoc]
  have hlen17 : (id ++ [d.length]).length = 17 := by simp [hid]
  have hlen17d : ((id ++ [d.length]) ++ d).length = 17 + d.length := by simp [hid]; omega
  refine ⟨?_, ?_, ?_, ?_, hlen⟩
  · rw [Nat.add_comm 16 o, ← List.getElem?_drop, hdrop,
      List.getElem?_append_right (by simp [hid])]
    simp [hid]
  · rw [slice?_pos (by omega) (by omega), hdrop]
    congr 1
    rw [show 16 + o - o = 16 by omega, ← hid]
    exact List.take_left id _
  · rw [slice?_pos (by omega) (by omega)]
    have hd17 : data.drop (o + 17) = d ++ restE := by
      rw [← List.drop_drop, hgrp, ← hlen17, List.drop_left]
    rw [show 16 + o + 1 = o + 17 by omega, hd17]
    congr 1
    rw [show o + 17 + d.length - (o + 17) = d.length by omega]
    exact List.take_left d restE
  · rw [show 16 + o + 1 + d.length = o + (17 + d.length) by omega,
      ← List.drop_drop, hgrp2, ← hlen17d, List.drop_left]

/-- The property loop decodes a well-formed run of entries starting at a
nonzero cursor position, provided the whole buffer fits the 8-bit cursor. -/
theorem propEntries_spec (data : List Nat) :
    ∀ (es : List (List Nat × List Nat)) (t : Nat) (fuel : Nat) (acc : List (List Nat)),
      wfEntries es → t ≠ 0 → data.drop t = encodeEntries es → data.length ≤ 255 →
      es.length < fuel →
      propEntries data 6 fuel t acc = some (acc ++ es.map fun e => e.1 ++ e.2) := by
  intro es
  induction es with
  | nil =>
    intro t fuel acc _ ht hdrop hlen hfuel
    obtain ⟨fuel, rfl⟩ : ∃ f, fuel = f + 1 := ⟨fuel - 1, by omega⟩
    have hge : ¬ t < data.length := by
      have h := congrArg List.length hdrop
      simp [encodeEntries] at h
      omega
    simp [propEntries, hge]
  | cons e rest ih =>
    rintro t fuel acc hwf ht hdrop hlen hfuel
    obtain ⟨id, d⟩ := e
    obtain ⟨fuel, rfl⟩ : ∃ f, fuel = f + 1 := ⟨fuel - 1, by omega⟩
    have hid : id.length = 16 := (hwf (id, d) (by simp)).1
    have hd : d.length ≤ 255 := (hwf (id, d) (by simp)).2
    have hdrop2 : data.drop t = id ++ ([d.length] ++ (d ++ encodeEntries rest)) := by
      rw [hdrop]; simp [encodeEntries, encodeEntry, List.append_assoc]
    obtain ⟨h16, hs1, hs2, hdroprest, hlen2⟩ :=
      propEntries_read data id d (encodeEntries rest) t hid hdrop2
    have hlt : t < data.length := by omega
    rw [propEntries]
    simp only [hlt, if_true, ht, ite_false, h16, hs1, hs2]
    have hmod : (16 + t + 1 + d.length) % 256 = t + 17 + d.length := by
      rw [Nat.mod_eq_of_lt (by omega)]; omega
    rw [hmod]
    have hdroprest2 : data.drop (t + 17 + d.length) = encodeEntries rest := by
      rw [show t + 17 + d.length = 16 + t + 1 + d.length by omega]
      exact hdroprest
    rw [ih (t + 17 + d.length) fuel (acc ++ [id ++ d])
      (fun x hx => hwf x (List.mem_cons_of_mem _ hx)) (by omega) hdroprest2 hlen (by
        simp only [List.length_cons] at hfuel; omega)]
    simp

/-- The first loop iteration starts at `total_len = 0` and bumps the cursor by
`offset - 2 = 4`, i.e. it skips exactly the discriminator bytes. -/
theorem propEntries_start (data : List Nat) (es : List (List Nat × List Nat)) (fuel : Nat)
    (hwf : wfEntries es) (hne : es ≠ []) (hdrop : data.drop 4 = encodeEntries es)
    (hlen : data.length ≤ 255) (hfuel : es.length < fuel) :
    propEntries data 6 fuel 0 [] = some (es.map fun e => e.1 ++ e.2) := by
  obtain ⟨⟨id, d⟩, rest, rfl⟩ : ∃ e rest, es = e :: rest := by
    cases es with
    | nil => exact absurd rfl hne
    | cons e rest => exact ⟨e, rest, rfl⟩
  obtain ⟨fuel, rfl⟩ : ∃ f, fuel = f + 1 := ⟨fuel - 1, by omega⟩
  have hid : id.length = 16 := (hwf (id, d) (by simp)).1
  have hd : d.length ≤ 255 := (hwf (id, d) (by simp)).2
  have hdrop2 : data.drop 4 = id ++ ([d.length] ++ (d ++ encodeEntries rest)) := by
    rw [hdrop]; simp [encodeEntries, encodeEntry, List.append_assoc]
  obtain ⟨h16, hs1, hs2, hdroprest, hlen2⟩ :=
    propEntries_read data id d (encodeEntries rest) 4 hid hdrop2
  have h16a : data[20]? = some d.length := by simpa using h16
  have hs1a : slice? data 4 20 = some id := by simpa using hs1
  have hs2a : slice? data 21 (21 + d.length) = some d := by simpa using hs2
  have hdra : data.drop (21 + d.length) = encodeEntries rest := by
    rw [show 21 + d.length = 16 + 4 + 1 + d.length by omega]
    exact hdroprest
  have hlt : (0 : Nat) < data.length := by omega
  rw [propEntries]
  rw [if_pos hlt]
  norm_num
  rw [h16a]
  simp only [hs1a, hs2a]
  rw [show (21 + d.length) % 256 = 21 + d.length from Nat.mod_eq_of_lt (by omega)]
  rw [propEntries_spec data rest (21 + d.length) fuel [id ++ d]
    (fun x hx => hwf x (List.mem_cons_of_mem _ hx)) (by omega) hdra hlen (by
      simp only [List.length_cons] at hfuel; omega)]
  simp

/-- Decoding one whole `Property`-tagged group: the 4-byte discriminator is
parsed, the entries are reconstructed as `id ++ data`, and the reported
bytes-consumed figure is the full buffer length. -/
theorem deserialize_prop_group (es : List (List Nat × List Nat)) (h : wfPropGroup es) :
    deserialize_data_with_meta (encodePropGroup es) true =
      some (es.map (fun e => e.1 ++ e.2), (encodePropGroup es).length,
        AccountDiscriminator.Property.serialize) := by
  obtain ⟨hne, hwf, hle⟩ := h
  have hlen4 : (encodePropGroup es).length = 4 + (encodeEntries es).length := by
    simp [encodePropGroup, AccountDiscriminator.serialize]
    omega
  have hdrop4 : (encodePropGroup es).drop 4 = encodeEntries es := by
    have : ([1, 0, 0, 0] : List Nat).length = 4 := rfl
    rw [encodePropGroup, AccountDiscriminator.serialize, ← this, List.drop_left]
  have hcount : es.length < (encodePropGroup es).length + 258 := by
    have := encodeEntries_count_le es
    omega
  have hslice : slice? (encodePropGroup es) 0 4 = some [1, 0, 0, 0] := by
    rw [slice?_pos (by omega) (by omega)]
    simp only [List.drop_zero, Nat.sub_zero]
    rw [encodePropGroup, AccountDiscriminator.serialize]
    rw [show (4 : Nat) = ([1, 0, 0, 0] : List Nat).length from rfl, List.take_left]
  rw [deserialize_data_with_meta]
  simp only [if_true, Bool.ite_eq_true_distrib]
  simp only [hslice]
  rw [show bincodeDeserializeDisc [1, 0, 0, 0] = some AccountDiscriminator.Property from rfl]
  rw [propEntries_start (encodePropGroup es) es ((encodePropGroup es).length + 258)
    hwf hne hdrop4 (by omega) hcount]

/-- Sample entries used by concrete instantiations: one with empty data and
one with five data bytes. -/
def esC2 : List (List Nat × List Nat) :=
  [(List.replicate 16 0, []), (List.replicate 16 1, [9, 8, 7, 6, 5])]

/-- C2 (as amended): for every nonempty run of well-formed property entries
(16-byte id, one length byte `L`, then `L` data bytes) packed immediately
after the 4-byte `Property` discriminator — property mode carries no meta
bytes — whose total size fits the decoder's 8-bit cursor (at most 255 bytes),
`deserialize_data_with_meta` returns one record `id ++ data` per entry in
encoding order and reports bytes consumed equal to the total buffer length;
the first iteration's starting offset skips exactly the 4 header bytes
already consumed for the discriminator. -/
theorem C2_property_group_decode (es : List (List Nat × List Nat)) (h : wfPropGroup es) :
    deserialize_data_with_meta (encodePropGroup es) true =
      some (es.map (fun e => e.1 ++ e.2), (encodePropGroup es).length,
        AccountDiscriminator.Property.serialize) :=
  deserialize_prop_group es h

/-- C2 witness: entries with data lengths 0 and 5 decode to `id ++ data`. -/
theorem C2_property_group_decode_witness :
    deserialize_data_with_meta (encodePropGroup esC2) true =
      some (esC2.map (fun e => e.1 ++ e.2), (encodePropGroup esC2).length,
        AccountDiscriminator.Property.serialize) :=
  C2_property_group_decode esC2
    ⟨by decide, by (show ∀ e ∈ esC2, e.1.length = 16 ∧ e.2.length ≤ 255); decide, by decide⟩

set_option maxRecDepth 100000 in
/-- C2 counterexample, refuting the claim as stated in two places.  First: on
a buffer laid out exactly as the claim says — 4-byte `Property` discriminator,
meta bytes `[1, 22]`, then one entry (16-byte id, length byte 5, 5 data
bytes) — the decoder does not return that entry's `id ++ data` with 28 bytes
consumed; it starts reading 16-byte ids at offset 4 (inside the meta bytes)
and aborts out of bounds.  Second: a single well-formed entry with data
length 235 makes the buffer 256 bytes long, the 8-bit cursor wraps to 0 and
the loop never terminates (so data lengths up to 255, which force buffers of
at least 276 bytes, cannot decode either). -/
theorem C2_property_decode_counterexample :
    deserialize_data_with_meta
      ([1, 0, 0, 0] ++ ([1, 22] ++ (List.replicate 16 0 ++ ([5] ++ [1, 2, 3, 4, 5])))) true =
      Option.none ∧
    deserialize_data_with_meta
      ([1, 0, 0, 0] ++ (List.replicate 16 0 ++ ([235] ++ List.replicate 235 7))) true =
      Option.none := by
  exact ⟨by decide, by decide⟩

/-! ### Decoding lemmas: fixed-length groups -/

theorem flatten_length_const (es : List (List Nat)) (L : Nat)
    (h : ∀ e ∈ es, e.length = L) : es.flatten.length = es.length * L := by
  induction es with
  | nil => simp
  | cons e rest ih =>
    simp only [List.flatten_cons, List.length_append, List.length_cons]
    rw [h e (by simp), ih (fun x hx => h x (List.mem_cons_of_mem _ hx))]
    ring

theorem flatten_drop_const (L : Nat) :
    ∀ (k : Nat) (es : List (List Nat)), (∀ e ∈ es, e.length = L) →
      es.flatten.drop (k * L) = (es.drop k).flatten := by
  intro k
  induction k with
  | zero => simp
  | succ k ih =>
    intro es h
    cases es with
    | nil => simp
    | cons e rest =>
      have he : e.length = L := h e (by simp)
      have hdl : (e ++ rest.flatten).drop L = rest.flatten := by
        rw [← he]; exact List.drop_left _ _
      rw [show (k + 1) * L = L + k * L by ring, List.flatten_cons, ← List.drop_drop,
        hdl, List.drop_succ_cons]
      exact ih rest (fun x hx => h x (List.mem_cons_of_mem _ hx))

/-- The fixed-length slicing loop recovers the original records when the
`u8` products `i * L` cannot wrap. -/
theorem fixedSlices_spec (es : List (List Nat)) (L : Nat)
    (h : ∀ e ∈ es, e.length = L) (hb : es.length * L ≤ 255) :
    ∀ k, k ≤ es.length → fixedSlices es.flatten L k = some (es.take k) := by
  intro k
  induction k with
  | zero => intro _; simp [fixedSlices]
  | succ k ih =>
    intro hk
    have hkL : k * L ≤ 255 := le_trans (Nat.mul_le_mul_right L (by omega)) hb
    have hk1L : (k + 1) * L ≤ 255 := le_trans (Nat.mul_le_mul_right L hk) hb
    have hflat : es.flatten.length = es.length * L := flatten_length_const es L h
    rw [fixedSlices, ih (by omega)]
    have hm1 : k * L % 256 = k * L := Nat.mod_eq_of_lt (by omega)
    have hm2 : (k + 1) * L % 256 = (k + 1) * L := Nat.mod_eq_of_lt (by omega)
    have hle : k * L ≤ (k + 1) * L := Nat.mul_le_mul_right L (by omega)
    have hup : (k + 1) * L ≤ es.flatten.length := by
      rw [hflat]; exact Nat.mul_le_mul_right L hk
    rw [hm1, hm2, slice?_pos hle hup]
    have hsub : (k + 1) * L - k * L = L := by
      have : (k + 1) * L = k * L + L := by ring
      omega
    rw [hsub, flatten_drop_const L k es h]
    have hklt : k < es.length := by omega
    rw [List.drop_eq_getElem_cons hklt]
    simp only [List.flatten_cons]
    have hek : es[k].length = L := h _ (List.getElem_mem hklt)
    rw [← hek, List.take_left, List.take_succ]
    simp [List.getElem?_eq_getElem hklt]

/-- Decoding a fixed-length group without a discriminator (offset 2). -/
theorem deserialize_fixed_nodisc (es : List (List Nat)) (L : Nat)
    (_hn : es.length ≤ 255) (hL : L ≤ 255) (hb : es.length * L ≤ 255)
    (h : ∀ e ∈ es, e.length = L) :
    deserialize_data_with_meta (build_meta es.length L ++ es.flatten) false =
      some (es, 2 + es.length * L, AccountDiscriminator.None.serialize) := by
  have hmodL : L % 256 = L := Nat.mod_eq_of_lt (by omega)
  have hflat : es.flatten.length = es.length * L := flatten_length_const es L h
  have hg0 : (([es.length, L] : List Nat) ++ es.flatten)[0]? = some es.length := rfl
  have hg1 : (([es.length, L] : List Nat) ++ es.flatten)[1]? = some L := by simp
  have hmul : es.length * L % 256 = es.length * L := Nat.mod_eq_of_lt (by omega)
  have hdrop2 : (([es.length, L] : List Nat) ++ es.flatten).drop 2 = es.flatten := by
    rw [show (2 : Nat) = ([es.length, L] : List Nat).length from rfl, List.drop_left]
  have hs : slice? (([es.length, L] : List Nat) ++ es.flatten) 2 (es.length * L + 2) =
      some es.flatten := by
    rw [slice?_pos (by omega) (by simp [hflat]), hdrop2,
      show es.length * L + 2 - 2 = es.length * L by omega, ← hflat, List.take_length]
  have hfs := fixedSlices_spec es L h hb es.length (le_refl _)
  rw [List.take_length] at hfs
  simp only [deserialize_data_with_meta, build_meta, hmodL, Bool.false_eq_true, if_false,
    hg0, hg1, hmul, hs, hfs, hflat]
  simp [Nat.add_comm]

/-- Decoding a discriminator-tagged fixed-length group (offset 6); the group
may be followed by arbitrary further bytes, which the fixed branch ignores. -/
theorem deserialize_fixed_disc (es : List (List Nat)) (L : Nat) (rest : List Nat)
    (_hn : es.length ≤ 255) (hL : L ≤ 255) (hb : es.length * L ≤ 255)
    (h : ∀ e ∈ es, e.length = L) :
    deserialize_data_with_meta (encodeFixedGroup ⟨es, L⟩ ++ rest) true =
      some (es, 6 + es.length * L, AccountDiscriminator.None.serialize) := by
  have hmodL : L % 256 = L := Nat.mod_eq_of_lt (by omega)
  have hflat : es.flatten.length = es.length * L := flatten_length_const es L h
  have hre : encodeFixedGroup ⟨es, L⟩ ++ rest =
      [0, 0, 0, 0] ++ ([es.length, L] ++ (es.flatten ++ rest)) := by
    simp [encodeFixedGroup, build_meta, AccountDiscriminator.serialize, hmodL,
      List.append_assoc]
  have hlen : (([0, 0, 0, 0] : List Nat) ++ ([es.length, L] ++ (es.flatten ++ rest))).length =
      6 + es.length * L + rest.length := by
    simp [hflat]
    omega
  have hs4 : slice? (([0, 0, 0, 0] : List Nat) ++ ([es.length, L] ++ (es.flatten ++ rest)))
      0 4 = some [0, 0, 0, 0] := by
    rw [slice?_pos (by omega) (by omega)]
    simp only [List.drop_zero, Nat.sub_zero]
    rw [show (4 : Nat) = ([0, 0, 0, 0] : List Nat).length from rfl, List.take_left]
  have hg4 : (([0, 0, 0, 0] : List Nat) ++ ([es.length, L] ++ (es.flatten ++ rest)))[4]? =
      some es.length := rfl
  have hg5 : (([0, 0, 0, 0] : List Nat) ++ ([es.length, L] ++ (es.flatten ++ rest)))[5]? =
      some L := by simp
  have hmul : es.length * L % 256 = es.length * L := Nat.mod_eq_of_lt (by omega)
  have hdrop6 : (([0, 0, 0, 0] : List Nat) ++ ([es.length, L] ++ (es.flatten ++ rest))).drop 6 =
      es.flatten ++ rest := by
    rw [show ([0, 0, 0, 0] : List Nat) ++ ([es.length, L] ++ (es.flatten ++ rest)) =
      (([0, 0, 0, 0] : List Nat) ++ [es.length, L]) ++ (es.flatten ++ rest) by
        simp [List.append_assoc]]
    rw [show (6 : Nat) = (([0, 0, 0, 0] : List Nat) ++ [es.length, L]).length from rfl,
      List.drop_left]
  have hs : slice? (([0, 0, 0, 0] : List Nat) ++ ([es.length, L] ++ (es.flatten ++ rest)))
      6 (es.length * L + 6) = some es.flatten := by
    rw [slice?_pos (by omega) (by omega), hdrop6,
      show es.length * L + 6 - 6 = es.length * L by omega, ← hflat, List.take_left]
  have hfs := fixedSlices_spec es L h hb es.length (le_refl _)
  rw [List.take_length] at hfs
  rw [hre]
  simp only [deserialize_data_with_meta, eq_self_iff_true, if_true, hs4]
  rw [show bincodeDeserializeDisc [0, 0, 0, 0] = some AccountDiscriminator.None from rfl]
  simp only [hg4, hg5, hmul, hs, hfs, hflat]
  simp [Nat.add_comm]

/-- C4 (as amended): for every count and entry length whose product fits the
decoder's 8-bit multiplication (count * entry_length ≤ 255), decoding the
2-byte meta header `build_meta(count, entry_length)` followed by
count * entry_length payload bytes with `has_discriminator = false` returns
exactly the original `count` slices of `entry_length` bytes each, in order,
and reports `2 + count * entry_length` bytes consumed. -/
theorem C4_fixed_group_decode (es : List (List Nat)) (L : Nat)
    (hn : es.length ≤ 255) (hL : L ≤ 255) (hb : es.length * L ≤ 255)
    (h : ∀ e ∈ es, e.length = L) :
    deserialize_data_with_meta (build_meta es.length L ++ es.flatten) false =
      some (es, 2 + es.length * L, AccountDiscriminator.None.serialize) :=
  deserialize_fixed_nodisc es L hn hL hb h

/-- C4 witness: the spec's example, `build_meta(3, 4)` plus 12 payload bytes,
yields the three original 4-byte slices and consumes exactly 14 bytes. -/
theorem C4_fixed_group_decode_witness :
    deserialize_data_with_meta (build_meta 3 4 ++
      [0, 1, 2, 3, 4, 5, 6, 7, 8, 9, 10, 11]) false =
      some ([[0, 1, 2, 3], [4, 5, 6, 7], [8, 9, 10, 11]], 14,
        AccountDiscriminator.None.serialize) := by
  have h := C4_fixed_group_decode [[0, 1, 2, 3], [4, 5, 6, 7], [8, 9, 10, 11]] 4
    (by decide) (by decide) (by decide) (by decide)
  exact h

set_option maxRecDepth 100000 in
/-- C4 counterexample: with count 16 and entry length 16 — both valid meta
bytes — the `u8` product wraps to 0, and instead of returning 16 slices and
consuming 2 + 256 bytes the decoder aborts (the first slice bound `(0+1)*16`
exceeds the empty payload slice it took), so the claim's "for every count and
entry_length" fails. -/
theorem C4_fixed_decode_counterexample :
    deserialize_data_with_meta (build_meta 16 16 ++ List.replicate 256 7) false =
      Option.none := by decide

/-! ### Decoding lemmas: concatenated groups -/

theorem dbdLoop_done (data : List Nat) (fuel start : Nat)
    (acc : List (List (List Nat) × List Nat)) (hf : 0 < fuel) :
    dbdLoop data true fuel start 0 acc = some acc := by
  obtain ⟨f, rfl⟩ : ∃ f, fuel = f + 1 := ⟨fuel - 1, by omega⟩
  simp [dbdLoop]

/-- Main loop invariant for `deserialize_byte_data`: a run of well-formed
discriminator-tagged fixed-length groups is decoded group by group, after
which the loop continues on `tail` as described by `hcont`. -/
theorem dbdLoop_groups (data : List Nat) (tail : List Nat)
    (tailRes : List (List (List Nat) × List Nat))
    (hdl : data.length < 2 ^ 64)
    (hcont : ∀ start fuel acc, data.drop start = tail →
      start + tail.length = data.length → tail.length + 1 ≤ fuel →
      dbdLoop data true fuel start tail.length acc = some (acc ++ tailRes)) :
    ∀ (gs : List FixedGroup) (start fuel : Nat) (acc : List (List (List Nat) × List Nat)),
      (∀ g ∈ gs, g.wf) →
      data.drop start = (gs.map encodeFixedGroup).flatten ++ tail →
      start + ((gs.map encodeFixedGroup).flatten ++ tail).length = data.length →
      ((gs.map encodeFixedGroup).flatten ++ tail).length + 1 ≤ fuel →
      dbdLoop data true fuel start (((gs.map encodeFixedGroup).flatten ++ tail).length) acc =
        some (acc ++ gs.map (fun g => (g.entries, AccountDiscriminator.None.serialize)) ++
          tailRes) := by
  intro gs
  induction gs with
  | nil =>
    intro start fuel acc _ hdrop hlen hfuel
    simp only [List.map_nil, List.flatten_nil, List.nil_append] at hdrop hlen hfuel ⊢
    rw [hcont start fuel acc hdrop hlen hfuel]
    simp
  | cons g gs ih =>
    intro start fuel acc hwf hdrop hlen hfuel
    obtain ⟨f, rfl⟩ : ∃ f, fuel = f + 1 := ⟨fuel - 1, by omega⟩
    obtain ⟨hn, hL, hb, hentry⟩ := hwf g (by simp)
    have hglen : (encodeFixedGroup g).length = 6 + g.entries.length * g.entryLen := by
      simp [encodeFixedGroup, build_meta, AccountDiscriminator.serialize,
        flatten_length_const g.entries g.entryLen hentry]
      omega
    have hsplit : data.drop start = encodeFixedGroup g ++
        ((gs.map encodeFixedGroup).flatten ++ tail) := by
      rw [hdrop]; simp [List.append_assoc]
    have hdec : deserialize_data_with_meta (data.drop start) true =
        some (g.entries, 6 + g.entries.length * g.entryLen,
          AccountDiscriminator.None.serialize) := by
      rw [hsplit]
      exact deserialize_fixed_disc g.entries g.entryLen _ hn hL hb hentry
    have htotal : ((List.map encodeFixedGroup (g :: gs)).flatten ++ tail).length =
        (6 + g.entries.length * g.entryLen) +
          ((gs.map encodeFixedGroup).flatten ++ tail).length := by
      simp only [List.map_cons, List.flatten_cons, List.append_assoc, List.length_append,
        hglen]
    have hrem : 0 < ((List.map encodeFixedGroup (g :: gs)).flatten ++ tail).length := by
      omega
    rw [dbdLoop, if_pos hrem, if_pos (by omega : start ≤ data.length)]
    simp only [hdec]
    have harith : (((List.map encodeFixedGroup (g :: gs)).flatten ++ tail).length + 2 ^ 64 -
        (6 + g.entries.length * g.entryLen) % 2 ^ 64) % 2 ^ 64 =
        ((gs.map encodeFixedGroup).flatten ++ tail).length := by
      have hx : (6 + g.entries.length * g.entryLen) % 2 ^ 64 =
          6 + g.entries.length * g.entryLen := Nat.mod_eq_of_lt (by omega)
      rw [hx, htotal]
      have h2 : (6 + g.entries.length * g.entryLen) +
          ((gs.map encodeFixedGroup).flatten ++ tail).length + 2 ^ 64 -
          (6 + g.entries.length * g.entryLen) =
          2 ^ 64 + ((gs.map encodeFixedGroup).flatten ++ tail).length := by omega
      rw [h2, Nat.add_mod_left, Nat.mod_eq_of_lt (by omega)]
    rw [harith]
    have hdrop2 : data.drop (start + (6 + g.entries.length * g.entryLen)) =
        (gs.map encodeFixedGroup).flatten ++ tail := by
      rw [← List.drop_drop, hsplit, ← hglen, List.drop_left]
    rw [ih (start + (6 + g.entries.length * g.entryLen)) f
      (acc ++ [(g.entries, AccountDiscriminator.None.serialize)])
      (fun x hx => hwf x (List.mem_cons_of_mem _ hx)) hdrop2 (by omega) (by omega)]
    simp

/-- Full-run lemma for `deserialize_byte_data` on a buffer of concatenated
well-formed groups in which a `Property`-tagged group, if any, comes last. -/
theorem deserialize_byte_data_groups (gs : List FixedGroup)
    (p : Option (List (List Nat × List Nat)))
    (hg : ∀ g ∈ gs, g.wf)
    (hp : ∀ es, p = some es → wfPropGroup es)
    (hlen : (encodeGroups gs p).length < 2 ^ 64) :
    deserialize_byte_data (encodeGroups gs p) true =
      some (gs.map (fun g => (g.entries, AccountDiscriminator.None.serialize)) ++
        (match p with
         | some es => [(es.map (fun e => e.1 ++ e.2),
             AccountDiscriminator.Property.serialize)]
         | Option.none => [])) := by
  cases p with
  | none =>
    have hcont : ∀ start fuel acc, (encodeGroups gs Option.none).drop start = ([] : List Nat) →
        start + ([] : List Nat).length = (encodeGroups gs Option.none).length →
        ([] : List Nat).length + 1 ≤ fuel →
        dbdLoop (encodeGroups gs Option.none) true fuel start ([] : List Nat).length acc =
          some (acc ++ []) := by
      intro start fuel acc _ _ hf
      simp only [List.length_nil] at hf ⊢
      rw [dbdLoop_done _ fuel start acc (by omega)]
      simp
    have h := dbdLoop_groups (encodeGroups gs Option.none) [] [] hlen hcont gs 0
      ((encodeGroups gs Option.none).length + 2) []
      hg (by simp [encodeGroups]) (by simp [encodeGroups]) (by simp [encodeGroups])
    rw [deserialize_byte_data]
    have hdata : (encodeGroups gs Option.none) = (gs.map encodeFixedGroup).flatten ++ [] := by
      simp [encodeGroups]
    rw [show (encodeGroups gs Option.none).length =
        ((gs.map encodeFixedGroup).flatten ++ []).length by rw [← hdata]] at h ⊢
    rw [h]
    simp
  | some es =>
    have hwfp := hp es rfl
    have htail : (encodeGroups gs (some es)) =
        (gs.map encodeFixedGroup).flatten ++ encodePropGroup es := by
      simp [encodeGroups]
    have htl : 0 < (encodePropGroup es).length := by
      simp [encodePropGroup, AccountDiscriminator.serialize]
    have hcont : ∀ start fuel acc,
        (encodeGroups gs (some es)).drop start = encodePropGroup es →
        start + (encodePropGroup es).length = (encodeGroups gs (some es)).length →
        (encodePropGroup es).length + 1 ≤ fuel →
        dbdLoop (encodeGroups gs (some es)) true fuel start (encodePropGroup es).length acc =
          some (acc ++ [(es.map (fun e => e.1 ++ e.2),
            AccountDiscriminator.Property.serialize)]) := by
      intro start fuel acc hdropst hlenst hf
      obtain ⟨f, rfl⟩ : ∃ f, fuel = f + 1 := ⟨fuel - 1, by omega⟩
      rw [dbdLoop, if_pos htl, if_pos (by omega : start ≤ (encodeGroups gs (some es)).length)]
      rw [hdropst, deserialize_prop_group es hwfp]
      have hlt : (encodePropGroup es).length < 2 ^ 64 := by
        have := congrArg List.length htail
        simp only [List.length_append] at this
        omega
      have hz : ((encodePropGroup es).length + 2 ^ 64 -
          (encodePropGroup es).length % 2 ^ 64) % 2 ^ 64 = 0 := by
        rw [Nat.mod_eq_of_lt hlt]
        rw [show (encodePropGroup es).length + 2 ^ 64 - (encodePropGroup es).length =
          2 ^ 64 by omega]
        simp
      simp only [hz]
      rw [dbdLoop_done _ f _ _ (by omega)]
    have h := dbdLoop_groups (encodeGroups gs (some es)) (encodePropGroup es)
      [(es.map (fun e => e.1 ++ e.2), AccountDiscriminator.Property.serialize)]
      hlen hcont gs 0 ((encodeGroups gs (some es)).length + 2) []
      hg (by simp [encodeGroups]) (by simp [encodeGroups]) (by simp [encodeGroups])
    rw [deserialize_byte_data]
    rw [show (encodeGroups gs (some es)).length =
        ((gs.map encodeFixedGroup).flatten ++ encodePropGroup es).length by
      rw [← htail]] at h ⊢
    rw [h]
    simp

/-- C3 (as amended): for every buffer formed by concatenating well-formed
encoded groups end to end in which a `Property`-tagged group appears only in
final position (the property decoder always reports the entire remaining
suffix as consumed, so it can only close a buffer), `deserialize_byte_data`
terminates with one `(records, discriminator)` pair per group and the
per-group bytes-consumed values summing exactly to the buffer length; in
particular a fixed-length group followed by a `Property`-tagged group decodes
into exactly two results with zero bytes remaining. -/
theorem C3_multi_group_decode (gs : List FixedGroup)
    (p : Option (List (List Nat × List Nat)))
    (hg : ∀ g ∈ gs, g.wf) (hp : ∀ es, p = some es → wfPropGroup es)
    (hlen : (encodeGroups gs p).length < 2 ^ 64) :
    deserialize_byte_data (encodeGroups gs p) true =
      some (gs.map (fun g => (g.entries, AccountDiscriminator.None.serialize)) ++
        (match p with
         | some es => [(es.map (fun e => e.1 ++ e.2),
             AccountDiscriminator.Property.serialize)]
         | Option.none => [])) :=
  deserialize_byte_data_groups gs p hg hp hlen

/-- C3 witness: one fixed-length group followed by one property group decodes
into exactly two `(records, discriminator)` pairs, consuming the whole buffer. -/
theorem C3_multi_group_decode_witness :
    deserialize_byte_data (encodeGroups [⟨[[7]], 1⟩] (some esC2)) true =
      some [([[7]], AccountDiscriminator.None.serialize),
        (esC2.map (fun e => e.1 ++ e.2), AccountDiscriminator.Property.serialize)] := by
  have h := C3_multi_group_decode [⟨[[7]], 1⟩] (some esC2)
    (by
      intro g hgm
      simp only [List.mem_singleton] at hgm
      subst hgm
      exact ⟨by decide, by decide, by decide, by decide⟩)
    (by
      intro es he
      injection he with he
      subst he
      exact ⟨by decide, by (show ∀ e ∈ esC2, e.1.length = 16 ∧ e.2.length ≤ 255); decide,
        by decide⟩)
    (by decide)
  simpa using h

/-- C3 counterexample: the claim as stated admits the two groups in either
order, but putting the well-formed `Property`-tagged group first makes the
property decoder run past its own group's end (its loop bound is the whole
buffer), and the decode aborts instead of producing two results. -/
theorem C3_multi_group_counterexample :
    deserialize_byte_data
      (encodePropGroup [(List.replicate 16 0, [])] ++ encodeFixedGroup ⟨[[7]], 1⟩) true =
      Option.none := by decide

/-! ### Edge controller claims -/

/-- C6: `key(A, t, B)` is byte-for-byte `A ‖ [len(t)] ‖ t ‖ B`; `create`
computes its key as `key(target, type, source)` (target first, source last);
and the key is orientation-sensitive: `key(A, t, B) ≠ key(B, t, A)` whenever
`A ≠ B`. -/
theorem C6_edge_key_layout (A B : List Nat) (t : Identifier)
    (hA : A.length = 16) (hB : B.length = 16) (ht : t.name.length ≤ 255) :
    EdgeController.key A t B = A ++ ((t.name.length :: t.name) ++ B) ∧
    EdgeController.create_key A B t = EdgeController.key B t A ∧
    (A ≠ B → EdgeController.key A t B ≠ EdgeController.key B t A) := by
  have hmod : t.name.length % 256 = t.name.length := Nat.mod_eq_of_lt (by omega)
  have hkey : ∀ X Y : List Nat, EdgeController.key X t Y =
      X ++ ((t.name.length :: t.name) ++ Y) := by
    intro X Y
    simp [EdgeController.key, build_bytes, Component.write, hmod]
  refine ⟨hkey A B, rfl, fun hAB heq => hAB ?_⟩
  have e1 : (A ++ ((t.name.length :: t.name) ++ B)).take 16 = A := by
    rw [← hA]; exact List.take_left _ _
  have e2 : (B ++ ((t.name.length :: t.name) ++ A)).take 16 = B := by
    rw [← hB]; exact List.take_left _ _
  rw [hkey A B, hkey B A] at heq
  rw [← e1, heq, e2]

/-- Sample 16-byte vertex ids and the type label bytes of the string `knows`. -/
def uuidA : List Nat := 1 :: List.replicate 15 0

def uuidB : List Nat := 2 :: List.replicate 15 0

def idKnows : Identifier := ⟨[107, 110, 111, 119, 115]⟩

/-- C6 witness at concrete vertex ids and the type `knows`. -/
theorem C6_edge_key_layout_witness :
    EdgeController.key uuidA idKnows uuidB =
      uuidA ++ ((idKnows.name.length :: idKnows.name) ++ uuidB) ∧
    EdgeController.key uuidA idKnows uuidB ≠ EdgeController.key uuidB idKnows uuidA := by
  obtain ⟨h1, h2, h3⟩ :=
    C6_edge_key_layout uuidA uuidB idKnows (by decide) (by decide) (by decide)
  exact ⟨h1, h3 (by decide)⟩

/-- C7: in `EdgeController::create` the property collaborator runs before the
edge key is buffered and committed.  If the property write fails, the
transaction is abandoned (the panic drops it uncommitted): the edges partition
is unchanged — in particular the new edge key is not observable — and no edge
value is returned.  Conversely, any key-value pair observable in the edges
partition after `create` either predates the call or was written in the
branch where the property write had already durably succeeded. -/
theorem C7_create_atomicity {π : Type} (epcCreate : π → EpcOutcome π) (st : Store π)
    (source_vertex target_vertex : List Nat) (t : Identifier) :
    (∀ p, epcCreate st.propState = EpcOutcome.failed p →
      (EdgeController.create epcCreate st source_vertex target_vertex t).1.edges = st.edges ∧
      (EdgeController.create epcCreate st source_vertex target_vertex t).2 = Option.none) ∧
    (∀ kv, kv ∈ (EdgeController.create epcCreate st source_vertex target_vertex t).1.edges →
      kv ∈ st.edges ∨ ∃ p props, epcCreate st.propState = EpcOutcome.ok p props ∧
        kv = (EdgeController.key target_vertex t source_vertex, [])) := by
  constructor
  · intro p hp
    simp [EdgeController.create, hp]
  · intro kv hkv
    cases hepc : epcCreate st.propState with
    | failed p =>
      left
      simpa [EdgeController.create, hepc] using hkv
    | ok p props =>
      simp only [EdgeController.create, EdgeController.create_key, hepc,
        List.mem_cons] at hkv
      rcases hkv with h | h
      · right; exact ⟨p, props, rfl, h⟩
      · left; exact h

/-- An empty store over a trivial collaborator state, for the C7 witness. -/
def storeEmpty : Store Bool := ⟨[], false⟩

/-- C7 witness: a collaborator that always fails leaves the edges partition
empty and makes `create` abort. -/
theorem C7_create_atomicity_witness :
    (EdgeController.create (fun _ => EpcOutcome.failed true) storeEmpty uuidA uuidB
      idKnows).1.edges = storeEmpty.edges ∧
    (EdgeController.create (fun _ => EpcOutcome.failed true) storeEmpty uuidA uuidB
      idKnows).2 = Option.none :=
  (C7_create_atomicity (fun _ => EpcOutcome.failed true) storeEmpty uuidA uuidB idKnows).1
    true rfl
